import Mathlib

/-!
Verification development for the trace-to-context retrieval engine
(`agent/context_builder.py`, `agent/resolver.py`).

The Python source is shallowly embedded: pure functions become Lean
functions, Python lists become `List`, Python dicts/sets used only for
membership become association lists / `List` membership, float scores are
modelled as `ℚ` (the source only ever adds, multiplies and compares the
constants 1.0, 0.7, 0.5, 0.3, 0.2, 0.1, 1.5), exceptions of the
similarity index become `Option` results, and the (unspecified) iteration
order of the Python `set` in `" ".join(set(file_names))` becomes an
explicit `setOrder : List String` parameter.  `\s` / `\d` of the `re`
patterns and `str.lower` are modelled on their ASCII behaviour.
All recursion is structural (or fuelled) so every definition evaluates by
kernel reduction on concrete inputs.
-/

/-! ## Generic list/string helpers mirroring Python primitives -/

/-- Is `p` a prefix of `l` (Python `str.startswith` on char lists). -/
def listPre : List Char → List Char → Bool
  | [], _ => true
  | _ :: _, [] => false
  | a :: as, b :: bs => a == b && listPre as bs

/-- Does `p` occur as a contiguous substring of `l` (Python `in`). -/
def listInf (p : List Char) : List Char → Bool
  | [] => listPre p []
  | l@(_ :: bs) => listPre p l || listInf p bs

/-- Is `p` a suffix of `l` (Python `str.endswith`). -/
def listSuf (p l : List Char) : Bool :=
  listPre p.reverse l.reverse

/-- Python `a in b` on strings. -/
def inStr (a b : String) : Bool := listInf a.data b.data

/-- Python `s.endswith(suf)`. -/
def endsW (s suf : String) : Bool := listSuf suf.data s.data

/-- Python `s.lower()` (ASCII case folding). -/
def lowerStr (s : String) : String := ⟨s.data.map Char.toLower⟩

/-- Python `s.replace("\\", "/")` (the only `replace` the source uses,
a single-character pattern, hence a plain map). -/
def replaceBS (s : String) : String :=
  ⟨s.data.map (fun c => if c = '\\' then '/' else c)⟩

/-- Python `s.split(sep)` for a one-character separator: always returns
at least one (possibly empty) piece. -/
def splitOnChar (c : Char) : List Char → List (List Char)
  | [] => [[]]
  | x :: xs =>
    match splitOnChar c xs with
    | [] => [[]]
    | h :: t => if x = c then [] :: h :: t else (x :: h) :: t

/-- Python `sep.join(parts)`. -/
def joinSep (sep : String) : List String → String
  | [] => ""
  | [x] => x
  | x :: xs => x ++ sep ++ joinSep sep xs

/-- Python `s[:n]` for `n ≥ 0`, counting characters. -/
def strTake (s : String) (n : Nat) : String := ⟨s.data.take n⟩

/-- Python `list[a:b]` slice semantics, including negative indices. -/
def pySlice {α : Type} (l : List α) (a b : Int) : List α :=
  let n : Int := l.length
  let norm : Int → Nat := fun x =>
    (min (max (if x < 0 then x + n else x) 0) n).toNat
  (l.take (norm b)).drop (norm a)

/-- Decimal digits of a positive natural, most significant first (fuelled
so that it reduces by kernel computation). -/
def natDigitsAux : Nat → Nat → List Char
  | 0, _ => []
  | _ + 1, 0 => []
  | fuel + 1, n => natDigitsAux fuel (n / 10) ++ [Char.ofNat (48 + n % 10)]

/-- Python `str(n)` for a natural number. -/
def natStr (n : Nat) : String :=
  if n = 0 then "0" else ⟨natDigitsAux (n + 1) n⟩

/-- Python `str(n)` for an integer. -/
def intStr : Int → String
  | Int.ofNat n => natStr n
  | Int.negSucc n => "-" ++ natStr (n + 1)

/-- Python `f"{n:4d}"`: right-align in a field of width 4. -/
def pad4 (n : Int) : String :=
  let s := intStr n
  if s.length < 4 then ⟨List.replicate (4 - s.length) ' '⟩ ++ s else s

/-- Digit-string to natural value (Python `int` on a `\d+` match). -/
def digitsVal (l : List Char) : Nat :=
  l.foldl (fun acc c => acc * 10 + (c.toNat - 48)) 0

/-! ## `pathlib.PurePosixPath` fragment used by the source -/

/-- The non-empty, non-`"."` components of a POSIX path. -/
def posixParts (p : String) : List String :=
  ((splitOnChar '/' p.data).map (fun l => (⟨l⟩ : String))).filter
    (fun s => s ≠ "" && s ≠ ".")

/-- The root of a POSIX path: `//` is preserved when there are exactly two
leading slashes, any other run of leading slashes collapses to `/`. -/
def posixRoot (p : String) : String :=
  if listPre ['/', '/'] p.data && !listPre ['/', '/', '/'] p.data then "//"
  else if listPre ['/'] p.data then "/"
  else ""

/-- Python `str(Path(p))` on a POSIX system: drops empty and `"."`
segments, collapses separators, yields `"."` for an empty relative path. -/
def posixStr (p : String) : String :=
  let parts := posixParts p
  let root := posixRoot p
  if parts = [] then (if root = "" then "." else root)
  else root ++ joinSep "/" parts

/-- Python `Path(p).name`: the final component (empty for a bare root or
an empty path). -/
def pathName (p : String) : String :=
  (posixParts p).getLast?.getD ""

/-- Python `Path(p).suffix`: the final extension of the name, empty when
the last dot is leading or trailing (CPython: `i = name.rfind('.')`,
suffix is `name[i:]` when `0 < i < len(name) - 1`). -/
def pathSuffix (p : String) : String :=
  let name := (pathName p).data
  let extRev := name.reverse.takeWhile (fun c => c ≠ '.')
  if extRev.length = name.length then ""
  else
    let i := name.length - 1 - extRev.length
    if 0 < i && extRev.length ≠ 0 then ⟨'.' :: extRev.reverse⟩ else ""

/-! ## File classification (`context_builder.py` lines 88-148) -/

/-- `CODE_EXTENSIONS` of the source. -/
def CODE_EXTENSIONS : List String :=
  [".py", ".pyx", ".pyi",
   ".js", ".ts", ".jsx", ".tsx", ".mjs", ".cjs",
   ".java", ".kt", ".scala", ".groovy",
   ".cpp", ".c", ".h", ".hpp", ".cc", ".cxx", ".hxx",
   ".go", ".rs", ".rb", ".php", ".swift", ".dart",
   ".cs", ".vb", ".fs",
   ".sh", ".bash", ".zsh", ".fish",
   ".sql", ".pl", ".pm", ".r", ".m", ".lua", ".vim", ".clj", ".hs", ".elm"]

/-- `DOC_EXTENSIONS` of the source. -/
def DOC_EXTENSIONS : List String :=
  [".md", ".txt", ".rst", ".adoc", ".asciidoc", ".org", ".wiki", ".tex"]

/-- `MARKUP_EXTENSIONS` of the source. -/
def MARKUP_EXTENSIONS : List String :=
  [".html", ".htm", ".xml", ".xhtml", ".svg", ".css", ".scss", ".sass",
   ".less", ".styl"]

/-- `DATA_EXTENSIONS` of the source. -/
def DATA_EXTENSIONS : List String :=
  [".json", ".yaml", ".yml", ".toml", ".ini", ".cfg", ".conf", ".csv",
   ".tsv", ".xlsx", ".xls"]

/-- `IGNORE_FILES` of the source. -/
def IGNORE_FILES : List String :=
  ["dockerfile", "docker-compose.yml", "docker-compose.yaml", ".dockerignore",
   ".gitignore", ".gitattributes", ".gitmodules",
   "package.json", "package-lock.json", "yarn.lock", "pnpm-lock.yaml",
   "requirements.txt", "setup.py", "pyproject.toml", "poetry.lock",
   "license", "license.txt",
   ".env", ".env.example", ".env.local", ".env.production",
   "makefile", "cmakelists.txt", ".editorconfig", ".prettierrc",
   ".eslintrc", ".eslintrc.json", "tsconfig.json", "webpack.config.js",
   "babel.config.js", ".babelrc", "jest.config.js", "pytest.ini",
   ".coveragerc", ".pylintrc", ".flake8", "mypy.ini",
   "composer.json", "composer.lock", "gemfile", "gemfile.lock",
   "cargo.toml", "cargo.lock", "go.mod", "go.sum",
   "pom.xml", "build.gradle", "build.sbt",
   ".travis.yml", ".github/workflows", "ci.yml", ".gitlab-ci.yml",
   "vagrantfile", "vagrantfile.rb"]

/-- `should_ignore_file` (lines 124-135). -/
def shouldIgnoreFile (file_path : String) : Bool :=
  let file_name_lower := lowerStr (pathName file_path)
  if file_name_lower ∈ IGNORE_FILES then true
  else
    let ext := lowerStr (pathSuffix file_path)
    ext ∈ MARKUP_EXTENSIONS || ext ∈ DATA_EXTENSIONS

/-- `get_file_priority` (lines 138-148). -/
def getFilePriority (file_path : String) : ℚ :=
  let ext := lowerStr (pathSuffix file_path)
  if ext ∈ CODE_EXTENSIONS then 1
  else if ext ∈ DOC_EXTENSIONS then 7/10
  else 3/10

/-! ## Data model -/

/-- A LangChain `Document` as consumed by the engine: its `page_content`
and the metadata keys the source reads (`path`, `file_path`,
`chunk_index`, `start_line`, `end_line`, `total_chunks`); an absent key is
`none`. -/
structure Doc where
  page_content : String
  m_path : Option String
  m_file_path : Option String
  chunk_index : Option Int
  start_line : Option Int
  end_line : Option Int
  total_chunks : Option Int
deriving DecidableEq, Repr

/-- One entry of `parse_stack_trace`'s result: keys `file`, `line`,
`full_path`, `file_path`. -/
structure RefInfo where
  file : String
  line : Option Int
  full_path : String
  file_path : String
deriving DecidableEq, Repr

/-- The similarity-search index capability: `similarity_search` and
`similarity_search_with_score`; a raising call of the latter is `none`. -/
structure Store where
  search : String → Nat → List Doc
  searchScored : String → Nat → Option (List (Doc × ℚ))

/-! ## Trace parser (`parse_stack_trace`, lines 22-85)

The three `re` patterns are deterministic for the reasons below, so they
are embedded as direct scanners:
* in pattern 1, `[^"\']+` cannot cross a quote, so greedy matching never
  backtracks productively; `\s*`/`\s+` runs abut characters outside the
  class; `(\d+|\?)` tries the digit run first;
* pattern 2 is pattern 1 followed by `\s*,`;
* in pattern 3 the group `([^"\']+\.py)` must extend to the character
  just before the closing quote, so it matches exactly when the quoted
  run ends in `.py` and has length at least 4.
`re.findall` is the usual leftmost non-overlapping scan. -/

/-- ASCII `\s` of the `re` module. -/
def isWs (c : Char) : Bool :=
  c = ' ' || c = '\t' || c = '\n' || c = '\r' ||
  c = Char.ofNat 11 || c = Char.ofNat 12

/-- ASCII `\d` of the `re` module. -/
def isDig (c : Char) : Bool := '0' ≤ c && c ≤ '9'

/-- A quote character, `["\']` in the patterns. -/
def isQuote (c : Char) : Bool := c = '"' || c = '\''

/-- Consume an exact literal. -/
def dropLit : List Char → List Char → Option (List Char)
  | [], l => some l
  | _ :: _, [] => none
  | a :: as, b :: bs => if a = b then dropLit as bs else none

/-- Consume `\s*`. -/
def dropWs : List Char → List Char
  | [] => []
  | c :: cs => if isWs c then dropWs cs else c :: cs

/-- Consume `\s+`. -/
def dropWs1 : List Char → Option (List Char)
  | [] => none
  | c :: cs => if isWs c then some (dropWs cs) else none

/-- Consume one `["\']`. -/
def dropQuote : List Char → Option (List Char)
  | [] => none
  | c :: cs => if isQuote c then some cs else none

/-- Consume a single given character. -/
def dropChar (x : Char) : List Char → Option (List Char)
  | [] => none
  | c :: cs => if c = x then some cs else none

/-- Consume `[^"\']+` greedily, returning the run. -/
def takeNonQuote1 (l : List Char) : Option (List Char × List Char) :=
  match l.takeWhile (fun c => !isQuote c) with
  | [] => none
  | run => some (run, l.drop run.length)

/-- Consume `(\d+|\?)`, returning the token. -/
def takeLineTok : List Char → Option (List Char × List Char)
  | [] => none
  | c :: cs =>
    if isDig c then
      some (c :: cs.takeWhile isDig, cs.dropWhile isDig)
    else if c = '?' then some (['?'], cs)
    else none

/-- A capture of pattern 1 (`File\s+["\']([^"\']+)["\']\s*,\s*line\s+(\d+|\?)`)
at the head of the input: the two groups and the rest of the input. -/
def matchP1 (l : List Char) : Option ((String × String) × List Char) := do
  let r ← dropLit "File".data l
  let r ← dropWs1 r
  let r ← dropQuote r
  let (g1, r) ← takeNonQuote1 r
  let r ← dropQuote r
  let r := dropWs r
  let r ← dropChar ',' r
  let r := dropWs r
  let r ← dropLit "line".data r
  let r ← dropWs1 r
  let (g2, r) ← takeLineTok r
  pure ((⟨g1⟩, ⟨g2⟩), r)

/-- A capture of pattern 2 (pattern 1 followed by `\s*,`). -/
def matchP2 (l : List Char) : Option ((String × String) × List Char) := do
  let (g, r) ← matchP1 l
  let r := dropWs r
  let r ← dropChar ',' r
  pure (g, r)

/-- A capture of pattern 3 (`["\']([^"\']+\.py)["\']`). -/
def matchP3 (l : List Char) : Option (String × List Char) := do
  let r ← dropQuote l
  let (run, r) ← takeNonQuote1 r
  let r ← dropQuote r
  if listSuf ".py".data run && 4 ≤ run.length then pure ((⟨run⟩ : String), r)
  else none

/-- Leftmost non-overlapping scan of `re.findall` (fuelled; every matcher
above consumes at least one character, so fuel `length + 1` is exact). -/
def scanAux {α : Type} (m : List Char → Option (α × List Char)) :
    Nat → List Char → List α
  | 0, _ => []
  | _ + 1, [] => []
  | fuel + 1, c :: cs =>
    match m (c :: cs) with
    | some (a, rest) => a :: scanAux m fuel rest
    | none => scanAux m fuel cs

/-- `re.findall(pattern, trace)` for one of the three patterns. -/
def findAllIn {α : Type} (m : List Char → Option (α × List Char))
    (trace : String) : List α :=
  scanAux m (trace.data.length + 1) trace.data

/-- The captures fed to the main loop: pattern 1's, then pattern 2's. -/
def mainCaptures (trace : String) : List (String × String) :=
  findAllIn matchP1 trace ++ findAllIn matchP2 trace

/-- The `line` value built from a captured token:
`None if line_num == '?' else int(line_num)`. -/
def lineOfTok (tok : String) : Option Int :=
  if tok = "?" then none else some (digitsVal tok.data : Nat)

/-- The `RefInfo` built from a main-pattern capture (lines 56-63). -/
def mkMainRef (fp tok : String) : RefInfo :=
  { file := pathName fp
    line := lineOfTok tok
    full_path := fp
    file_path := posixStr fp }

/-- The main loop over pattern-1/2 captures with first-basename-wins
deduplication (lines 46-64). -/
def buildRefs : List (String × String) → List String → List RefInfo
  | [], _ => []
  | (fp, tok) :: rest, seen =>
    let name := pathName fp
    if name ∈ seen then buildRefs rest seen
    else mkMainRef fp tok :: buildRefs rest (name :: seen)

/-- The fallback loop over pattern-3 captures (lines 66-82). -/
def buildFbRefs : List String → List String → List RefInfo
  | [], _ => []
  | fp :: rest, seen =>
    let name := pathName fp
    if name ∉ seen && endsW name ".py" then
      { file := name, line := none, full_path := fp,
        file_path := posixStr fp } :: buildFbRefs rest (name :: seen)
    else buildFbRefs rest seen

/-- `parse_stack_trace` (lines 22-85). -/
def parseStackTrace (trace : String) : List RefInfo :=
  let main := buildRefs (mainCaptures trace) []
  if main ≠ [] then main
  else buildFbRefs (findAllIn matchP3 trace) []

/-! ## Candidate resolver (`get_relevant_docs`, lines 151-296) -/

/-- The path-derived identity key of a document:
`metadata.get("file_path", metadata.get("path", ""))`. -/
def candidateKey (d : Doc) : String :=
  d.m_file_path.getD (d.m_path.getD "")

/-- The lower-cased, separator-normalized form of a path used by the
exact-match tests: `str(Path(p)).replace("\\", "/").lower()`. -/
def normPathLower (p : String) : String :=
  lowerStr (replaceBS (posixStr p))

/-- The exact-path test of the exact-match pass (lines 199-224). -/
def isExactMatch (info : RefInfo) (d : Doc) : Bool :=
  let doc_path := d.m_file_path.getD ""
  let doc_name := d.m_path.getD ""
  let byFullPath :=
    if info.full_path ≠ "" then
      let fn := normPathLower info.full_path
      let dn := normPathLower doc_path
      endsW fn dn || endsW dn fn || inStr fn dn || inStr dn fn
    else false
  byFullPath || doc_name == info.file ||
    (if doc_path ≠ "" && info.file ≠ "" then
      endsW (normPathLower doc_path) (lowerStr info.file)
    else false)

/-- Candidate deduplication of the batched search (lines 177-187). -/
def dedupCands : List Doc → List String → List Doc
  | [], _ => []
  | d :: ds, seenIds =>
    let k := candidateKey d
    if k ∈ seenIds then dedupCands ds seenIds
    else d :: dedupCands ds (k :: seenIds)

/-- The exact-match scan of one reference over the batched candidates
(lines 197-232); threads the shared `seen_doc_paths` set, the
`exact_matches` accumulator and the `found_exact` flag. -/
def exactScanAux (info : RefInfo) :
    List Doc → List String → List (Doc × ℚ) → Bool →
    List String × List (Doc × ℚ) × Bool
  | [], seen, ex, fnd => (seen, ex, fnd)
  | d :: ds, seen, ex, fnd =>
    if isExactMatch info d then
      let k := candidateKey d
      if k ∈ seen then exactScanAux info ds seen ex fnd
      else exactScanAux info ds (k :: seen) (ex ++ [(d, 1)]) true
    else exactScanAux info ds seen ex fnd

/-- The scored semantic pass for one reference (lines 239-262): ignore
filter, dedup (the path is marked seen before the distance test), the
1.5 distance threshold, and the final score
`(1/(1+d) if d > 0 else 0.5) * priority`. -/
def semScanAux :
    List (Doc × ℚ) → List String → List (Doc × ℚ) →
    List String × List (Doc × ℚ)
  | [], seen, sm => (seen, sm)
  | (d, dist) :: rs, seen, sm =>
    let p := candidateKey d
    if shouldIgnoreFile p then semScanAux rs seen sm
    else if p ∈ seen then semScanAux rs seen sm
    else if 3/2 < dist then semScanAux rs (p :: seen) sm
    else
      let normalized : ℚ := if 0 < dist then 1 / (1 + dist) else 1/2
      semScanAux rs (p :: seen) (sm ++ [(d, normalized * getFilePriority p)])

/-- The unscored fallback pass for one reference (lines 266-275): ignore
filter, dedup, fixed base score `0.2 * priority`. -/
def fbScanAux :
    List Doc → List String → List (Doc × ℚ) →
    List String × List (Doc × ℚ)
  | [], seen, sm => (seen, sm)
  | d :: ds, seen, sm =>
    let p := candidateKey d
    if shouldIgnoreFile p then fbScanAux ds seen sm
    else if p ∈ seen then fbScanAux ds seen sm
    else fbScanAux ds (p :: seen) (sm ++ [(d, 1/5 * getFilePriority p)])

/-- The semantic phase of one unresolved reference: the scored query with
`k = 10`, or — when it raises — the fallback query with `k = 5`
(lines 237-275). -/
def semanticPhase (store : Store) (info : RefInfo)
    (seen : List String) (sm : List (Doc × ℚ)) :
    List String × List (Doc × ℚ) :=
  match store.searchScored info.file 10 with
  | some rs => semScanAux rs seen sm
  | none => fbScanAux (store.search info.file 5) seen sm

/-- Processing of one reference: exact scan, then — when no exact match
was recorded for it — the semantic phase. -/
def refStep (store : Store) (cands : List Doc)
    (st : List String × List (Doc × ℚ) × List (Doc × ℚ))
    (info : RefInfo) :
    List String × List (Doc × ℚ) × List (Doc × ℚ) :=
  let (seen, ex, sm) := st
  let (seen1, ex1, fnd) := exactScanAux info cands seen ex false
  if fnd then (seen1, ex1, sm)
  else
    let (seen2, sm2) := semanticPhase store info seen1 sm
    (seen2, ex1, sm2)

/-- Stable insertion for descending sort by score: an element moves past
another only when that one's score is strictly larger, which reproduces
Python's stable `sorted(key=score, reverse=True)`. -/
def insertDescQ (x : Doc × ℚ) : List (Doc × ℚ) → List (Doc × ℚ)
  | [] => [x]
  | y :: ys => if x.2 < y.2 then y :: insertDescQ x ys else x :: y :: ys

/-- `sorted(all_matches, key=lambda x: x[1], reverse=True)` (line 280). -/
def sortDescQ (l : List (Doc × ℚ)) : List (Doc × ℚ) :=
  l.foldr insertDescQ []

/-- The cap-and-floor loop (lines 284-291): take the top 20, then drop
entries scoring below 0.1 that are not exact matches. -/
def capFloor (sorted : List (Doc × ℚ)) (exDocs : List Doc) : List Doc :=
  (sorted.take 20).foldl
    (fun acc ds =>
      if ds.2 < 1/10 && ds.1 ∉ exDocs then acc else acc ++ [ds.1]) []

/-- The full state produced by one `get_relevant_docs` call: the exact
and semantic match lists and the returned documents. -/
structure ResolveResult where
  exact : List (Doc × ℚ)
  semantic : List (Doc × ℚ)
  docs : List Doc

/-- `get_relevant_docs` (lines 151-296).  `setOrder` is the iteration
order of the Python set in `" ".join(set(file_names))` — an enumeration
of the distinct basenames, left unspecified by CPython. -/
def getRelevantDocsFull (setOrder : List String)
    (stackInfo : List RefInfo) (store : Store) : ResolveResult :=
  let fileNames := stackInfo.map (·.file)
  let searchQuery := joinSep " " setOrder
  let cands :=
    if searchQuery ≠ "" then
      store.search searchQuery (min 100 (fileNames.length * 10))
    else []
  let allCands := dedupCands cands []
  let st := stackInfo.foldl (refStep store allCands) ([], [], [])
  let ex := st.2.1
  let sm := st.2.2
  let sorted := sortDescQ (ex ++ sm)
  { exact := ex, semantic := sm, docs := capFloor sorted (ex.map (·.1)) }

/-- The documents `get_relevant_docs` returns. -/
def getRelevantDocs (setOrder : List String)
    (stackInfo : List RefInfo) (store : Store) : List Doc :=
  (getRelevantDocsFull setOrder stackInfo store).docs

/-! ## Context assembler (`build_context`, lines 299-474) -/

/-- Python truthiness of an optional integer metadata value
(`None` and `0` are falsy). -/
def truthyI : Option Int → Bool
  | some n => n ≠ 0
  | none => false

/-- Python `page_content.split('\n')` as a list of strings. -/
def splitLines (s : String) : List String :=
  (splitOnChar '\n' s.data).map (fun l => (⟨l⟩ : String))

/-- `metadata.get("path", "unknown")`. -/
def docMeta (d : Doc) : String := d.m_path.getD "unknown"

/-- `metadata.get("file_path", file_path_meta)`. -/
def docRel (d : Doc) : String := d.m_file_path.getD (docMeta d)

/-- `file_lines_map.get(name, [])`: the stack-trace lines recorded for a
basename, in stack order (lines 316-324; entries require a truthy file
name and a present line). -/
def fileLines (stackInfo : List RefInfo) (name : String) : List Int :=
  if name = "" then []
  else (stackInfo.filter (fun i => i.file == name)).filterMap (·.line)

/-- The extra full-path pass for relevant lines (lines 362-372). -/
def fullPathLines (stackInfo : List RefInfo) (fn fnr : String) : List Int :=
  stackInfo.foldl
    (fun acc i =>
      if i.full_path ≠ "" &&
          (pathName i.full_path == fn || pathName i.full_path == fnr) &&
          i.line.isSome then
        acc ++ [i.line.getD 0]
      else acc) []

/-- Is the document's basename (from either metadata path) mentioned in
the stack trace, case-insensitively (lines 338-342)? -/
def isInStack (stackInfo : List RefInfo) (d : Doc) : Bool :=
  stackInfo ≠ [] && stackInfo.any

    (fun i =>
      lowerStr i.file == lowerStr (pathName (docMeta d)) ||
      lowerStr i.file == lowerStr (pathName (docRel d)))

/-- The skip condition of the assembler loop (line 344): not referenced
in the trace and matching the ignore policy. -/
def skipDoc (stackInfo : List RefInfo) (d : Doc) : Bool :=
  !isInStack stackInfo d && shouldIgnoreFile (docRel d)

/-- The ±20-line windows around each relevant line (lines 404-410):
`(max(0, l-21), min(len, l+20), l)` in 0-based index space. -/
def windowsOf (rl : List Int) (n : Nat) : List (Int × Int × Int) :=
  rl.map (fun l => (max 0 (l - 1 - 20), min (n : Int) (l - 1 + 21), l))

/-- Lexicographic strict order on the window triples (Python tuple `<`). -/
def lexLtT (a b : Int × Int × Int) : Bool :=
  a.1 < b.1 || (a.1 == b.1 &&
    (a.2.1 < b.2.1 || (a.2.1 == b.2.1 && a.2.2 < b.2.2)))

/-- Stable insertion for `context_ranges.sort()` (ascending, stable). -/
def insLexT (x : Int × Int × Int) :
    List (Int × Int × Int) → List (Int × Int × Int)
  | [] => [x]
  | y :: ys => if lexLtT y x then y :: insLexT x ys else x :: y :: ys

/-- `context_ranges.sort()` (line 414). -/
def sortT (l : List (Int × Int × Int)) : List (Int × Int × Int) :=
  l.foldr insLexT []

/-- The merge loop over sorted windows (lines 415-422): a window starting
no later than the current end is merged, keeping the *new* window's line
number. -/
def mergeAuxT (cur : Int × Int × Int) (done : List (Int × Int × Int)) :
    List (Int × Int × Int) → List (Int × Int × Int)
  | [] => done ++ [cur]
  | (s, e, ln) :: rest =>
    if s ≤ cur.2.1 then mergeAuxT (cur.1, max cur.2.1 e, ln) done rest
    else mergeAuxT (s, e, ln) (done ++ [cur]) rest

/-- The merged ±20-line windows of `build_context` for relevant lines
`rl` over a file of `n` lines (lines 404-422). -/
def mergedRanges (rl : List Int) (n : Nat) : List (Int × Int × Int) :=
  match sortT (windowsOf rl n) with
  | [] => []
  | x :: xs => mergeAuxT x [] xs

/-- The marker prefix of a rendered row (lines 430-432): `">>> "` exactly
when this row is the merged window's recorded line. -/
def rowMark (actual ln : Int) : String :=
  if actual == ln then ">>> " else "    "

/-- One rendered merged window: each row is
`marker + f"{actual:4d}" + " | " + line` (lines 426-435). -/
def renderWindow (content_lines : List String) :
    Int × Int × Int → String
  | (s, e, ln) =>
    joinSep "\n"
      ((pySlice content_lines s e).enum.map
        (fun p =>
          rowMark (s + (p.1 : Int) + 1) ln ++
            pad4 (s + (p.1 : Int) + 1) ++ " | " ++ p.2))

/-- The `[чанк i/n, строки s-e]` header fragment (lines 400, 448). -/
def chunkInfoStr (d : Doc) : String :=
  " [чанк " ++ intStr (d.chunk_index.getD 0 + 1) ++ "/" ++
    intStr (d.total_chunks.getD 1) ++ ", строки " ++
    intStr (d.start_line.getD 0) ++ "-" ++ intStr (d.end_line.getD 0) ++ "]"

/-- The rendered block of one document (lines 330-457, after the skip
test): chunk-aware highlighting, ±20-line windows, or the similarity
preview. -/
def renderDoc (stackInfo : List RefInfo) (d : Doc) : String :=
  let file_path_meta := docMeta d
  let file_path_relative := docRel d
  let file_name := pathName file_path_meta
  let file_name_relative := pathName file_path_relative
  let display_path :=
    if file_path_relative ≠ "unknown" then file_path_relative
    else file_path_meta
  let is_chunk := d.chunk_index.isSome
  let csT := truthyI d.start_line
  let ceT := truthyI d.end_line
  let cs := d.start_line.getD 0
  let ce := d.end_line.getD 0
  let content_lines := splitLines d.page_content
  let rl0 := fileLines stackInfo file_name
  let rl1 := if rl0 = [] then fileLines stackInfo file_name_relative else rl0
  let rl2 :=
    if rl1 = [] && stackInfo ≠ [] then
      fullPathLines stackInfo file_name file_name_relative
    else rl1
  let relevant :=
    if is_chunk && rl2 ≠ [] && csT && ceT then
      rl2.filter (fun l => cs ≤ l && l ≤ ce)
    else rl2
  if relevant ≠ [] then
    if is_chunk && csT && ceT then
      let numbered := content_lines.enum.map
        (fun p =>
          let actual := cs + (p.1 : Int)
          (if actual ∈ relevant then ">>> " else "    ") ++
            pad4 actual ++ " | " ++ p.2)
      "=== Файл: " ++ display_path ++ chunkInfoStr d ++
        " (строки из stack trace: " ++
        joinSep ", " (relevant.map intStr) ++ ") ===\n" ++
        joinSep "\n" numbered ++ "\n\n"
    else
      let ranges := windowsOf relevant content_lines.length
      if ranges ≠ [] then
        let merged := mergedRanges relevant content_lines.length
        "=== Файл: " ++ display_path ++ " (строки из stack trace: " ++
          joinSep ", " (relevant.map intStr) ++ ") ===\n" ++
          joinSep "\n" (merged.map (renderWindow content_lines)) ++ "\n\n"
      else
        "=== Файл: " ++ display_path ++ " ===\n" ++ d.page_content ++ "\n\n"
  else
    if is_chunk && csT && ceT then
      "=== Файл: " ++ display_path ++ chunkInfoStr d ++
        " (найден через similarity search) ===\n" ++ d.page_content ++ "\n\n"
    else
      let preview :=
        if 100 < content_lines.length then
          content_lines.take 100 ++
            ["\n... (файл обрезан, всего " ++
              natStr content_lines.length ++ " строк)"]
        else content_lines.take 100
      "=== Файл: " ++ display_path ++
        " (найден через similarity search, показаны первые 100 строк) ===\n"
        ++ joinSep "\n" preview ++ "\n\n"

/-- The character-budget loop of `build_context` (lines 329-470): skip
ignored unreferenced documents, append whole blocks while they fit; on
the first overflow append a truncated block when more than 100
characters remain (cut to `remaining - 50` plus the 22-character marker)
and stop, otherwise stop dropping the block. -/
def buildLoop (stackInfo : List RefInfo) (maxChars : Nat) :
    List Doc → Nat → List String
  | [], _ => []
  | d :: ds, cur =>
    if skipDoc stackInfo d then buildLoop stackInfo maxChars ds cur
    else
      let c := renderDoc stackInfo d
      if maxChars < cur + c.length then
        if 100 < maxChars - cur then
          [strTake c (maxChars - cur - 50) ++ "\n\n[контекст обрезан]\n\n"]
        else []
      else c :: buildLoop stackInfo maxChars ds (cur + c.length)

/-- `build_context` (lines 299-474): the newline-join of the accepted
blocks under the `max_tokens * 4` character budget. -/
def buildContext (docs : List Doc) (stackInfo : List RefInfo)
    (maxTokens : Nat) : String :=
  joinSep "\n" (buildLoop stackInfo (maxTokens * 4) docs 0)

/-! ## Composed pipeline (`resolver.resolve_error`, lines 394-410) -/

/-- The trace-to-context part of `resolve_error`: parse, resolve, build;
the two sentinel strings of the source for the empty cases. -/
def resolveErrorContext (setOrder : List String) (store : Store)
    (trace : String) (maxTokens : Nat) : String :=
  let stackInfo := parseStackTrace trace
  if stackInfo = [] then
    "Не удалось извлечь информацию о файлах из stack trace."
  else
    let docs := getRelevantDocs setOrder stackInfo store
    if docs = [] then
      "Не найдено релевантных файлов в векторной базе данных."
    else buildContext docs stackInfo maxTokens

/-! ## Concrete fixtures used by the witnesses and counterexamples -/

/-- A document with no metadata at all. -/
def bareDoc : Doc :=
  { page_content := "", m_path := none, m_file_path := none,
    chunk_index := none, start_line := none, end_line := none,
    total_chunks := none }

/-- A document carrying only a `path` metadata entry. -/
def pathDoc (p : String) : Doc :=
  { page_content := "", m_path := some p, m_file_path := none,
    chunk_index := none, start_line := none, end_line := none,
    total_chunks := none }

/-- A document carrying only a `file_path` metadata entry and given
content. -/
def relDoc (p content : String) : Doc :=
  { page_content := content, m_path := none, m_file_path := some p,
    chunk_index := none, start_line := none, end_line := none,
    total_chunks := none }

/-- An index whose answers are empty except where stated; used by the
semantic-scoring counterexample: the scored query for `a.py` returns one
source-code document at distance exactly 0. -/
def store4 : Store :=
  { search := fun _ _ => []
    searchScored := fun q _ =>
      if q = "a.py" then some [(relDoc "m.py" "M", 0)] else some [] }

/-- An index for the dedup-priority counterexample: the batched query
returns the `sub/y.py` document, and the scored query for `x.py` also
returns it at distance 1/2. -/
def store2 : Store :=
  { search := fun q _ =>
      if q = "x.py y.py" then [relDoc "sub/y.py" "Y"] else []
    searchScored := fun q _ =>
      if q = "x.py" then some [(relDoc "sub/y.py" "Y", 1/2)] else some [] }

/-- An index for the set-iteration-order counterexample: its batched
answer depends on the spelling of the space-joined query. -/
def store3 : Store :=
  { search := fun q _ =>
      if q = "a.py b.py" then [relDoc "a.py" "A"]
      else if q = "b.py a.py" then [relDoc "b.py" "B"]
      else []
    searchScored := fun _ _ => some [] }

/-- The `i`-th distinct-path `a.py` candidate of the cap counterexample. -/
def doc5 (i : Nat) : Doc :=
  { page_content := "", m_path := some "a.py",
    m_file_path := some ("d" ++ natStr i ++ "/a.py"),
    chunk_index := none, start_line := none, end_line := none,
    total_chunks := none }

/-- An index for the cap counterexample: the batched query returns 21
distinct-path documents all named `a.py`. -/
def store5 : Store :=
  { search := fun _ _ => (List.range 21).map (fun i => doc5 (i + 1))
    searchScored := fun _ _ => some [] }

/-- An index for the fallback counterexample: the scored query raises for
`a.py` (recovered via the small unscored query, which returns a
source-code document) and succeeds for `b.py` with a document at the
threshold distance 3/2. -/
def store8 : Store :=
  { search := fun q k =>
      if q = "a.py" && k = 5 then [relDoc "f.py" "F"] else []
    searchScored := fun q _ =>
      if q = "b.py" then some [(relDoc "s.dat" "S", 3/2)] else none }

/-- An index returning the bare document on every unscored query. -/
def bareStore : Store :=
  { search := fun _ _ => [bareDoc]
    searchScored := fun _ _ => some [] }

/-- An index for the merge-and-bound witness: one batched candidate that
exactly matches the single reference. -/
def storeW5 : Store :=
  { search := fun _ _ => [relDoc "x.py" "W"]
    searchScored := fun _ _ => some [] }

/-- Sum of the lengths of a list of strings. -/
def sumLens (l : List String) : Nat := (l.map String.length).sum

/-- The path keys of a list of scored matches. -/
def matchKeys (l : List (Doc × ℚ)) : List String :=
  l.map (fun p => candidateKey p.1)

/-- The three references of the cap counterexample. -/
def refs5 : List RefInfo :=
  [⟨"a.py", none, "p/a.py", "p/a.py"⟩, ⟨"b.py", none, "p/b.py", "p/b.py"⟩,
   ⟨"c.py", none, "p/c.py", "p/c.py"⟩]

/-- The two references of the dedup-priority counterexample. -/
def refs2 : List RefInfo :=
  [⟨"x.py", none, "q/x.py", "q/x.py"⟩, ⟨"y.py", none, "q/y.py", "q/y.py"⟩]

/-- The two references of the fallback counterexample. -/
def refs8 : List RefInfo :=
  [⟨"a.py", none, "z1", "z1"⟩, ⟨"b.py", none, "z2", "z2"⟩]

/-- A 60-line document named `f.py`. -/
def d6 : Doc :=
  { page_content := joinSep "\n" (List.replicate 60 "x"),
    m_path := some "f.py", m_file_path := none, chunk_index := none,
    start_line := none, end_line := none, total_chunks := none }

/-- A stack trace mentioning `f.py` at lines 10 and 20 (as `build_context`
receives it). -/
def stack6 : List RefInfo :=
  [⟨"f.py", some 10, "f.py", "f.py"⟩, ⟨"f.py", some 20, "f.py", "f.py"⟩]

/-- The trace of the determinism counterexample. -/
def trace3 : String := "File \"a.py\", line 1\nFile \"b.py\", line 2"

/-- The invariant threaded through one resolution pass: the path keys of
the recorded matches are pairwise distinct and all marked seen, exact
matches score exactly 1, semantic matches score strictly below 1. -/
def ResolveInv (seen : List String) (ex sm : List (Doc × ℚ)) : Prop :=
  (matchKeys (ex ++ sm)).Nodup ∧
  (∀ k ∈ matchKeys (ex ++ sm), k ∈ seen) ∧
  (∀ p ∈ ex, p.2 = 1) ∧
  (∀ p ∈ sm, p.2 < 1)

/-! ## Theorems -/

theorem strTake_length (s : String) (n : Nat) :
    (strTake s n).length = min n s.length := by
  show (s.data.take n).length = min n s.data.length
  exact List.length_take ..

theorem joinSep_nl_length (l : List String) :
    (joinSep "\n" l).length ≤ sumLens l + l.length := by
  induction l with
  | nil => simp [joinSep, sumLens]
  | cons x xs ih =>
    cases xs with
    | nil => simp [joinSep, sumLens]
    | cons y ys =>
      have hnl : ("\n" : String).length = 1 := rfl
      simp only [joinSep, String.length_append, sumLens, List.map_cons,
        List.sum_cons, List.length_cons, hnl] at *
      omega


theorem buildLoop_cons_skip (si : List RefInfo) (C : Nat) (d : Doc)
    (ds : List Doc) (cur : Nat) (h : skipDoc si d = true) :
    buildLoop si C (d :: ds) cur = buildLoop si C ds cur := by
  simp only [buildLoop, h, if_true]

theorem buildLoop_cons_trunc (si : List RefInfo) (C : Nat) (d : Doc)
    (ds : List Doc) (cur : Nat) (h : skipDoc si d = false)
    (hov : C < cur + (renderDoc si d).length) (hr : 100 < C - cur) :
    buildLoop si C (d :: ds) cur =
      [strTake (renderDoc si d) (C - cur - 50) ++
        "\n\n[контекст обрезан]\n\n"] := by
  simp only [buildLoop, h, Bool.false_eq_true, if_false]
  rw [if_pos hov, if_pos hr]

theorem buildLoop_cons_drop (si : List RefInfo) (C : Nat) (d : Doc)
    (ds : List Doc) (cur : Nat) (h : skipDoc si d = false)
    (hov : C < cur + (renderDoc si d).length) (hr : ¬ 100 < C - cur) :
    buildLoop si C (d :: ds) cur = [] := by
  simp only [buildLoop, h, Bool.false_eq_true, if_false]
  rw [if_pos hov, if_neg hr]

theorem buildLoop_cons_fit (si : List RefInfo) (C : Nat) (d : Doc)
    (ds : List Doc) (cur : Nat) (h : skipDoc si d = false)
    (hov : ¬ C < cur + (renderDoc si d).length) :
    buildLoop si C (d :: ds) cur =
      renderDoc si d :: buildLoop si C ds (cur + (renderDoc si d).length) := by
  simp only [buildLoop, h, Bool.false_eq_true, if_false]
  rw [if_neg hov]

theorem buildLoop_sum_le (si : List RefInfo) (C : Nat) :
    ∀ (docs : List Doc) (cur : Nat), cur ≤ C →
      sumLens (buildLoop si C docs cur) + cur ≤ C := by
  intro docs
  induction docs with
  | nil => intro cur h; simpa [buildLoop, sumLens] using h
  | cons d ds ih =>
    intro cur h
    by_cases hs : skipDoc si d = true
    · rw [buildLoop_cons_skip si C d ds cur hs]
      exact ih cur h
    · rw [Bool.not_eq_true] at hs
      by_cases hov : C < cur + (renderDoc si d).length
      · by_cases hr : 100 < C - cur
        · rw [buildLoop_cons_trunc si C d ds cur hs hov hr]
          have hmark : ("\n\n[контекст обрезан]\n\n" : String).length = 22 :=
            rfl
          have htk : (strTake (renderDoc si d) (C - cur - 50)).length
              = C - cur - 50 := by
            rw [strTake_length]
            omega
          simp only [sumLens, List.map_cons, List.map_nil, List.sum_cons,
            List.sum_nil, String.length_append, htk, hmark]
          omega
        · rw [buildLoop_cons_drop si C d ds cur hs hov hr]
          simpa [sumLens] using h
      · rw [buildLoop_cons_fit si C d ds cur hs hov]
        have hcur : cur + (renderDoc si d).length ≤ C := by omega
        have := ih (cur + (renderDoc si d).length) hcur
        simp only [sumLens, List.map_cons, List.sum_cons] at this ⊢
        omega

theorem buildLoop_count_le (si : List RefInfo) (C : Nat) :
    ∀ (docs : List Doc) (cur : Nat),
      (buildLoop si C docs cur).length ≤ docs.length := by
  intro docs
  induction docs with
  | nil => intro cur; simp [buildLoop]
  | cons d ds ih =>
    intro cur
    by_cases hs : skipDoc si d = true
    · rw [buildLoop_cons_skip si C d ds cur hs]
      exact Nat.le_succ_of_le (ih cur)
    · rw [Bool.not_eq_true] at hs
      by_cases hov : C < cur + (renderDoc si d).length
      · by_cases hr : 100 < C - cur
        · rw [buildLoop_cons_trunc si C d ds cur hs hov hr]
          simp
        · rw [buildLoop_cons_drop si C d ds cur hs hov hr]
          simp
      · rw [buildLoop_cons_fit si C d ds cur hs hov]
        simpa using ih (cur + (renderDoc si d).length)

/-- Claim C1 (amended): for every document list, stack info and token
budget, the blocks `build_context` accepts have total length at most
`max_tokens * 4`; the returned string — the `"\n"`-join of those blocks,
whose separator newlines are *not* counted against the budget — has
length at most `max_tokens * 4` plus one per document.  The stated bound
`max_tokens * 4` itself fails because of the separators; moreover an
overflowing block is truncated to `remaining - 50` characters plus a
22-character marker (not to exactly the remaining budget) and only when
more than 100 characters remain, being dropped entirely otherwise — in
either case no further blocks are appended. -/
theorem claim_C1_amended (docs : List Doc) (si : List RefInfo) (mt : Nat) :
    sumLens (buildLoop si (mt * 4) docs 0) ≤ mt * 4 ∧
    (buildContext docs si mt).length ≤ mt * 4 + docs.length := by
  refine ⟨?_, ?_⟩
  · have := buildLoop_sum_le si (mt * 4) docs 0 (Nat.zero_le _)
    omega
  · have h1 := joinSep_nl_length (buildLoop si (mt * 4) docs 0)
    have h2 := buildLoop_sum_le si (mt * 4) docs 0 (Nat.zero_le _)
    have h3 := buildLoop_count_le si (mt * 4) docs 0
    simp only [buildContext]
    omega

/-- Claim C1 counterexample: two 78-character blocks exactly exhaust the
156-character budget of `max_tokens = 39`, and the joining newline pushes
the returned string to 157 characters — beyond `max_tokens * 4`. -/
theorem claim_C1_cex :
    39 * 4 < (buildContext [pathDoc "a", pathDoc "b"] [] 39).length := by
  decide

theorem buildLoop_middle_skip (si : List RefInfo) (C : Nat) (d : Doc)
    (post : List Doc) (h : skipDoc si d = true) :
    ∀ (pre : List Doc) (cur : Nat),
      buildLoop si C (pre ++ d :: post) cur =
        buildLoop si C (pre ++ post) cur := by
  intro pre
  induction pre with
  | nil =>
    intro cur
    exact buildLoop_cons_skip si C d post cur h
  | cons x pre ih =>
    intro cur
    by_cases hx : skipDoc si x = true
    · rw [List.cons_append, List.cons_append,
        buildLoop_cons_skip si C x _ cur hx,
        buildLoop_cons_skip si C x _ cur hx]
      exact ih cur
    · rw [Bool.not_eq_true] at hx
      by_cases hov : C < cur + (renderDoc si x).length
      · by_cases hr : 100 < C - cur
        · rw [List.cons_append, List.cons_append,
            buildLoop_cons_trunc si C x _ cur hx hov hr,
            buildLoop_cons_trunc si C x _ cur hx hov hr]
        · rw [List.cons_append, List.cons_append,
            buildLoop_cons_drop si C x _ cur hx hov hr,
            buildLoop_cons_drop si C x _ cur hx hov hr]
      · rw [List.cons_append, List.cons_append,
          buildLoop_cons_fit si C x _ cur hx hov,
          buildLoop_cons_fit si C x _ cur hx hov, ih]

/-- Claim C10 (amended): a document matched by the ignore policy and not
referenced (by either derived basename, case-insensitively) in the stack
trace contributes nothing: `build_context` on a list containing it equals
`build_context` on the list with it removed, wherever it sits.  A
document that *is* referenced is never skipped by the ignore filter, and
is rendered whenever the remaining character budget accommodates its
block — but (contrary to the claim's "always rendered") it can still be
dropped by budget exhaustion. -/
theorem claim_C10_amended :
    (∀ (si : List RefInfo) (d : Doc) (pre post : List Doc) (mt : Nat),
      shouldIgnoreFile (docRel d) = true → isInStack si d = false →
      buildContext (pre ++ d :: post) si mt =
        buildContext (pre ++ post) si mt) ∧
    (∀ (si : List RefInfo) (d : Doc),
      isInStack si d = true → skipDoc si d = false) ∧
    (∀ (si : List RefInfo) (C : Nat) (d : Doc) (ds : List Doc) (cur : Nat),
      skipDoc si d = false → cur + (renderDoc si d).length ≤ C →
      buildLoop si C (d :: ds) cur =
        renderDoc si d ::
          buildLoop si C ds (cur + (renderDoc si d).length)) := by
  refine ⟨?_, ?_, ?_⟩
  · intro si d pre post mt hig hst
    have hskip : skipDoc si d = true := by
      simp [skipDoc, hig, hst]
    simp only [buildContext]
    rw [buildLoop_middle_skip si (mt * 4) d post hskip pre 0]
  · intro si d h
    simp [skipDoc, h]
  · intro si C d ds cur h hfit
    exact buildLoop_cons_fit si C d ds cur h (by omega)

/-- Claim C10 witness: a `package.json` document not referenced by the
(empty) stack trace is dropped from the context wherever it appears. -/
theorem claim_C10_w :
    buildContext [pathDoc "a", relDoc "package.json" "PKG"] [] 150000 =
      buildContext [pathDoc "a"] [] 150000 :=
  claim_C10_amended.1 [] (relDoc "package.json" "PKG") [pathDoc "a"] []
    150000 (by decide) (by decide)

/-- Claim C10 counterexample: a document that matches the ignore set and
*is* referenced in the stack trace is nevertheless not rendered when the
budget (`max_tokens = 1`) is too small — the returned context is empty —
refuting "always rendered". -/
theorem claim_C10_cex :
    shouldIgnoreFile (docRel (relDoc "package.json" "PKG")) = true ∧
    isInStack [⟨"package.json", some 3, "package.json", "package.json"⟩]
      (relDoc "package.json" "PKG") = true ∧
    buildContext [relDoc "package.json" "PKG"]
      [⟨"package.json", some 3, "package.json", "package.json"⟩] 1 = "" := by
  refine ⟨by decide, by decide, by decide⟩

theorem mem_insLexT (y x : Int × Int × Int) (l : List (Int × Int × Int))
    (h : x ∈ insLexT y l) : x = y ∨ x ∈ l := by
  induction l with
  | nil => simpa [insLexT] using h
  | cons z zs ih =>
    by_cases hc : lexLtT z y = true
    · simp only [insLexT, hc, if_true, List.mem_cons] at h
      rcases h with h | h
      · exact Or.inr (by simp [h])
      · rcases ih h with h1 | h1
        · exact Or.inl h1
        · exact Or.inr (List.mem_cons_of_mem _ h1)
    · simp only [insLexT, hc, if_false, Bool.false_eq_true, List.mem_cons]
        at h
      rcases h with h | h | h
      · exact Or.inl h
      · exact Or.inr (by simp [h])
      · exact Or.inr (List.mem_cons_of_mem _ h)

theorem mem_sortT (x : Int × Int × Int) :
    ∀ l : List (Int × Int × Int), x ∈ sortT l → x ∈ l := by
  intro l
  induction l with
  | nil => simp [sortT]
  | cons a as ih =>
    intro h
    have h1 : x ∈ insLexT a (sortT as) := h
    rcases mem_insLexT a x (sortT as) h1 with h2 | h2
    · simp [h2]
    · exact List.mem_cons_of_mem _ (ih h2)

theorem mergeAuxT_third :
    ∀ (rest : List (Int × Int × Int)) (cur : Int × Int × Int)
      (done : List (Int × Int × Int)) (x : Int × Int × Int),
      x ∈ mergeAuxT cur done rest →
        x.2.2 ∈ done.map (fun w => w.2.2) ∨ x.2.2 = cur.2.2 ∨
          x.2.2 ∈ rest.map (fun w => w.2.2) := by
  intro rest
  induction rest with
  | nil =>
    intro cur done x h
    simp only [mergeAuxT] at h
    rcases List.mem_append.mp h with h1 | h1
    · exact Or.inl (List.mem_map_of_mem _ h1)
    · simp only [List.mem_singleton] at h1
      exact Or.inr (Or.inl (by simp [h1]))
  | cons w rest ih =>
    intro cur done x h
    obtain ⟨s, e, ln⟩ := w
    by_cases hc : s ≤ cur.2.1
    · simp only [mergeAuxT, if_pos hc] at h
      rcases ih (cur.1, max cur.2.1 e, ln) done x h with h1 | h1 | h1
      · exact Or.inl h1
      · exact Or.inr (Or.inr (by simp [h1]))
      · exact Or.inr (Or.inr (by simp; right; simpa using h1))
    · simp only [mergeAuxT, if_neg hc] at h
      rcases ih (s, e, ln) (done ++ [cur]) x h with h1 | h1 | h1
      · simp only [List.map_append, List.map_cons, List.map_nil,
          List.mem_append, List.mem_singleton] at h1
        rcases h1 with h2 | h2
        · exact Or.inl h2
        · exact Or.inr (Or.inl h2)
      · exact Or.inr (Or.inr (by simp [h1]))
      · exact Or.inr (Or.inr (by simp; right; simpa using h1))

theorem mergedRanges_line_mem (rl : List Int) (n : Nat) (s e ln : Int)
    (h : (s, e, ln) ∈ mergedRanges rl n) : ln ∈ rl := by
  have key : ∀ w ∈ sortT (windowsOf rl n), w.2.2 ∈ rl := by
    intro w hw
    have hw2 := mem_sortT w _ hw
    simp only [windowsOf, List.mem_map] at hw2
    obtain ⟨l, hl, rfl⟩ := hw2
    simpa using hl
  unfold mergedRanges at h
  rcases hs : sortT (windowsOf rl n) with _ | ⟨x, xs⟩
  · rw [hs] at h
    simp at h
  · rw [hs] at h
    rcases mergeAuxT_third xs x [] (s, e, ln) h with h1 | h1 | h1
    · simp at h1
    · have hx := key x (by rw [hs]; exact List.mem_cons_self x xs)
      have h2 : ln = x.2.2 := h1
      rw [h2]
      exact hx
    · simp only [List.mem_map] at h1
      obtain ⟨w, hw, hww⟩ := h1
      have hx := key w (by rw [hs]; exact List.mem_cons_of_mem x hw)
      have h2 : ln = w.2.2 := hww.symm
      rw [h2]
      exact hx

/-- Claim C6 (amended): for a non-chunk document with relevant trace
lines, `build_context` renders the merged ±20-line windows with absolute
line numbers, but each merged window marks exactly *one* line — the
window's recorded line number (the one carried by the last constituent
window merged into it, itself always one of the requested lines); a row
is marked iff its absolute number equals that recorded line, so other
requested lines falling inside the same merged window are left
unmarked. -/
theorem claim_C6_amended (rl : List Int) (n : Nat) (s e ln : Int)
    (h : (s, e, ln) ∈ mergedRanges rl n) :
    ln ∈ rl ∧ ∀ i : Int, (rowMark i ln = ">>> " ↔ i = ln) := by
  refine ⟨mergedRanges_line_mem rl n s e ln h, ?_⟩
  intro i
  unfold rowMark
  by_cases hi : i = ln
  · simp [hi]
  · have : (i == ln) = false := by simpa using hi
    simp [this, hi]

/-- Claim C6 witness: the merged window `(0, 40, 20)` produced for
requested lines 10 and 20 of a 60-line file records line 20, which is a
requested line, and exactly the rows numbered 20 are marked. -/
theorem claim_C6_w :
    (20 : Int) ∈ ([10, 20] : List Int) ∧
    ∀ i : Int, (rowMark i 20 = ">>> " ↔ i = 20) :=
  claim_C6_amended [10, 20] 60 0 40 20 (by decide)

set_option maxRecDepth 40000 in
/-- Claim C6 counterexample: lines 10 and 20 of a 60-line file produce
the single merged window `(0, 40, 20)`; in the rendered context the row
for line 10 — a requested line inside the window — is unmarked
(`"      10 | x"` appears and `">>>   10"` does not), while line 20 is
marked. -/
theorem claim_C6_cex :
    mergedRanges [10, 20] 60 = [(0, 40, 20)] ∧
    (10 : Int) ∈ ([10, 20] : List Int) ∧
    inStr "      10 | x" (buildContext [d6] stack6 150000) = true ∧
    inStr ">>>   10" (buildContext [d6] stack6 150000) = false ∧
    inStr ">>>   20 | x" (buildContext [d6] stack6 150000) = true := by
  refine ⟨by decide, by decide, by decide, by decide, by decide⟩

theorem buildRefs_mem :
    ∀ (caps : List (String × String)) (seen : List String) (ref : RefInfo),
      ref ∈ buildRefs caps seen →
        ∃ fp tok, (fp, tok) ∈ caps ∧ ref = mkMainRef fp tok := by
  intro caps
  induction caps with
  | nil => intro seen ref h; simp [buildRefs] at h
  | cons c rest ih =>
    intro seen ref h
    obtain ⟨fp, tok⟩ := c
    by_cases hseen : pathName fp ∈ seen
    · simp only [buildRefs, if_pos hseen] at h
      obtain ⟨fp2, tok2, hmem, heq⟩ := ih seen ref h
      exact ⟨fp2, tok2, List.mem_cons_of_mem _ hmem, heq⟩
    · simp only [buildRefs, if_neg hseen, List.mem_cons] at h
      rcases h with h | h
      · exact ⟨fp, tok, List.mem_cons_self _ _, h⟩
      · obtain ⟨fp2, tok2, hmem, heq⟩ :=
          ih (pathName fp :: seen) ref h
        exact ⟨fp2, tok2, List.mem_cons_of_mem _ hmem, heq⟩

theorem buildFbRefs_line :
    ∀ (fps : List String) (seen : List String) (ref : RefInfo),
      ref ∈ buildFbRefs fps seen → ref.line = none := by
  intro fps
  induction fps with
  | nil => intro seen ref h; simp [buildFbRefs] at h
  | cons fp rest ih =>
    intro seen ref h
    by_cases hc : (pathName fp ∉ seen && endsW (pathName fp) ".py") = true
    · simp only [buildFbRefs, hc, if_true, List.mem_cons] at h
      rcases h with h | h
      · rw [h]
      · exact ih _ ref h
    · simp only [buildFbRefs, hc, Bool.false_eq_true, if_false] at h
      exact ih _ ref h

theorem mkMainRef_line_none_iff (fp tok : String) :
    ((mkMainRef fp tok).line = none) ↔ tok = "?" := by
  by_cases h : tok = "?"
  · simp [mkMainRef, lineOfTok, h]
  · simp [mkMainRef, lineOfTok, h]

theorem mkMainRef_line_nonneg (fp tok : String) (n : Int)
    (h : (mkMainRef fp tok).line = some n) : 0 ≤ n := by
  by_cases hq : tok = "?"
  · simp [mkMainRef, lineOfTok, hq] at h
  · simp only [mkMainRef, lineOfTok, if_neg hq, Option.some.injEq] at h
    omega

/-- Claim C7 (amended): every reference produced by `parse_stack_trace`
has a *nonnegative* line number when non-null (the `\d+` pattern also
accepts `0`, so "≥ 1" fails); a reference either comes from a
main-pattern capture — in which case its line is null exactly when the
captured token was the unknown-line marker `"?"` — or has a null line
(the loose quoted-path fallback always yields null). -/
theorem claim_C7_amended (trace : String) (ref : RefInfo)
    (h : ref ∈ parseStackTrace trace) :
    (∀ n : Int, ref.line = some n → 0 ≤ n) ∧
    ((∃ fp tok, (fp, tok) ∈ mainCaptures trace ∧ ref = mkMainRef fp tok ∧
        ((ref.line = none) ↔ tok = "?")) ∨ ref.line = none) := by
  by_cases hm : buildRefs (mainCaptures trace) [] = []
  · have hfb : ref ∈ buildFbRefs (findAllIn matchP3 trace) [] := by
      simpa [parseStackTrace, hm] using h
    have hline := buildFbRefs_line _ _ ref hfb
    refine ⟨?_, Or.inr hline⟩
    intro n hn
    rw [hline] at hn
    exact absurd hn (by simp)
  · have hmain : ref ∈ buildRefs (mainCaptures trace) [] := by
      simpa [parseStackTrace, hm] using h
    obtain ⟨fp, tok, hmem, heq⟩ := buildRefs_mem _ [] ref hmain
    refine ⟨?_, Or.inl ⟨fp, tok, hmem, heq, ?_⟩⟩
    · intro n hn
      exact mkMainRef_line_nonneg fp tok n (heq ▸ hn)
    · rw [heq]
      exact mkMainRef_line_none_iff fp tok

/-- Claim C7 witness: the first reference parsed from a two-line trace
has the nonnegative line 1 and stems from the capture `("a.py", "1")`. -/
theorem claim_C7_w :
    (∀ n : Int,
        (⟨"a.py", some 1, "a.py", "a.py"⟩ : RefInfo).line = some n →
          0 ≤ n) ∧
    ((∃ fp tok, (fp, tok) ∈ mainCaptures trace3 ∧
        (⟨"a.py", some 1, "a.py", "a.py"⟩ : RefInfo) = mkMainRef fp tok ∧
        (((⟨"a.py", some 1, "a.py", "a.py"⟩ : RefInfo).line = none) ↔
          tok = "?")) ∨
      (⟨"a.py", some 1, "a.py", "a.py"⟩ : RefInfo).line = none) :=
  claim_C7_amended trace3 ⟨"a.py", some 1, "a.py", "a.py"⟩ (by decide)

/-- Claim C7 counterexample: the trace `File "a.py", line 0` parses to a
reference whose line is `0` — a non-null value that is not `≥ 1`. -/
theorem claim_C7_cex :
    (parseStackTrace "File \"a.py\", line 0").map (fun r => r.line) =
      [some 0] ∧ ¬ (1 ≤ (0 : Int)) :=
  ⟨by decide, by decide⟩

theorem listInf_singleton_of_mem (c : Char) :
    ∀ l : List Char, c ∈ l → listInf [c] l = true := by
  intro l
  induction l with
  | nil => simp
  | cons x xs ih =>
    intro h
    rcases List.mem_cons.mp h with h1 | h1
    · have : listPre [c] (x :: xs) = true := by
        simp [listPre, h1]
      simp [listInf, this]
    · simp [listInf, ih h1]

/-- Claim C9 (amended): a candidate document carrying neither `file_path`
nor `path` metadata derives the empty path, which `Path` normalizes to
`"."`; it is then recognized as an exact-path match for every reference
whose *normalized* full path contains a `.` character (the original
claim's "full path contains a `.`" is wrong: normalization can erase the
dot, as for `./x`), and — when it is the only candidate — it is recorded
as an exact match with score 1.0. -/
theorem claim_C9_amended :
    (∀ (f : String) (l : Option Int) (fpn fp : String), fp ≠ "" →
        '.' ∈ (normPathLower fp).data →
        isExactMatch
          { file := f, line := l, full_path := fp, file_path := fpn }
          bareDoc = true) ∧
    (getRelevantDocsFull ["x"] [⟨"x", none, "a.b", "a.b"⟩] bareStore).exact
      = [(bareDoc, 1)] := by
  constructor
  · intro f l fpn fp hne hdot
    have hin : inStr (normPathLower "") (normPathLower fp) = true := by
      have h1 : normPathLower "" = "." := by decide
      rw [h1]
      show listInf ("." : String).data (normPathLower fp).data = true
      have h2 : ("." : String).data = ['.'] := rfl
      rw [h2]
      exact listInf_singleton_of_mem '.' _ hdot
    simp only [isExactMatch, bareDoc]
    rw [if_pos hne]
    simp [hin]
  · decide

/-- Claim C9 witness: for the reference with full path `a.b` (whose
normalized form contains a dot) the metadata-less document is an exact
match. -/
theorem claim_C9_w :
    isExactMatch ⟨"x", none, "a.b", "a.b"⟩ bareDoc = true :=
  claim_C9_amended.1 "x" none "a.b" "a.b" (by decide) (by decide)

/-- Claim C9 counterexample: the reference `./x` has a full path
containing `'.'`, yet the metadata-less document is *not* classified as
an exact match for it (normalization turns `./x` into `x`, which contains
no dot), and the resolution pass records no exact match. -/
theorem claim_C9_cex :
    ('.' ∈ "./x".data) ∧
    isExactMatch ⟨"x", none, "./x", "x"⟩ bareDoc = false ∧
    (getRelevantDocsFull ["x"] [⟨"x", none, "./x", "x"⟩] bareStore).exact
      = [] :=
  ⟨by decide, by decide, by decide⟩


set_option maxRecDepth 40000 in
unseal Rat.mul Rat.add Rat.inv in
/-- Claim C3 (code bug): the pipeline is *not* byte-deterministic, because
the batched exact-match query is `" ".join(set(file_names))` and the
iteration order of a Python string set varies across runs (randomized
string hashing).  With the set order made explicit, two valid enumerations
of the same basename set — same trace, same index behaviour, same budget —
produce different context strings. -/
theorem claim_C3_bug :
    (["a.py", "b.py"] : List String).Perm ["b.py", "a.py"] ∧
    resolveErrorContext ["a.py", "b.py"] store3 trace3 150000 ≠
      resolveErrorContext ["b.py", "a.py"] store3 trace3 150000 :=
  ⟨by decide, by decide⟩

/-- Claim C4 (amended): every match appended by the scored semantic pass
comes from a returned `(document, distance)` pair with distance at most
1.5 whose path passes the ignore filter, and its final score is
`(1 / (1 + distance)) * priority` only for *positive* distances — a
distance `≤ 0` (e.g. an identical embedding at distance 0) gets the
constant normalized score `0.5` instead, so the final score is
`0.5 * priority` there. -/
theorem claim_C4_amended (rs : List (Doc × ℚ)) :
    ∀ (seen : List String) (sm : List (Doc × ℚ)) (d : Doc) (s : ℚ),
      (d, s) ∈ (semScanAux rs seen sm).2 →
      (d, s) ∈ sm ∨
        ∃ dist : ℚ, (d, dist) ∈ rs ∧ dist ≤ 3/2 ∧
          shouldIgnoreFile (candidateKey d) = false ∧
          s = (if 0 < dist then 1 / (1 + dist) else 1/2) *
            getFilePriority (candidateKey d) := by
  induction rs with
  | nil =>
    intro seen sm d s h
    exact Or.inl (by simpa [semScanAux] using h)
  | cons pr rs ih =>
    intro seen sm d s h
    obtain ⟨d1, dist1⟩ := pr
    by_cases hig : shouldIgnoreFile (candidateKey d1) = true
    · rw [show semScanAux ((d1, dist1) :: rs) seen sm
          = semScanAux rs seen sm by
        simp only [semScanAux, hig, if_true]] at h
      rcases ih seen sm d s h with h1 | ⟨dist, hmem, hle, hig2, hsc⟩
      · exact Or.inl h1
      · exact Or.inr ⟨dist, List.mem_cons_of_mem _ hmem, hle, hig2, hsc⟩
    · by_cases hseen : candidateKey d1 ∈ seen
      · rw [show semScanAux ((d1, dist1) :: rs) seen sm
            = semScanAux rs seen sm by
          simp only [semScanAux, hig, Bool.false_eq_true, if_false]
          rw [if_pos hseen]] at h
        rcases ih seen sm d s h with h1 | ⟨dist, hmem, hle, hig2, hsc⟩
        · exact Or.inl h1
        · exact Or.inr ⟨dist, List.mem_cons_of_mem _ hmem, hle, hig2, hsc⟩
      · by_cases hbig : (3 : ℚ)/2 < dist1
        · rw [show semScanAux ((d1, dist1) :: rs) seen sm
              = semScanAux rs (candidateKey d1 :: seen) sm by
            simp only [semScanAux, hig, Bool.false_eq_true, if_false]
            rw [if_neg hseen, if_pos hbig]] at h
          rcases ih _ sm d s h with h1 | ⟨dist, hmem, hle, hig2, hsc⟩
          · exact Or.inl h1
          · exact Or.inr ⟨dist, List.mem_cons_of_mem _ hmem, hle, hig2, hsc⟩
        · rw [show semScanAux ((d1, dist1) :: rs) seen sm
              = semScanAux rs (candidateKey d1 :: seen)
                  (sm ++ [(d1, (if 0 < dist1 then 1 / (1 + dist1) else 1/2)
                    * getFilePriority (candidateKey d1))]) by
            simp only [semScanAux, hig, Bool.false_eq_true, if_false]
            rw [if_neg hseen, if_neg hbig]] at h
          rcases ih _ _ d s h with h1 | ⟨dist, hmem, hle, hig2, hsc⟩
          · rcases List.mem_append.mp h1 with h2 | h2
            · exact Or.inl h2
            · simp only [List.mem_singleton, Prod.mk.injEq] at h2
              obtain ⟨rfl, rfl⟩ := h2
              refine Or.inr ⟨dist1, List.mem_cons_self _ _,
                not_lt.mp hbig, by simpa using hig, rfl⟩
          · exact Or.inr ⟨dist, List.mem_cons_of_mem _ hmem, hle, hig2, hsc⟩

unseal Rat.mul Rat.add Rat.inv in
/-- Claim C4 witness: a document at distance 1/2 passes the threshold and
scores `(1/(1+1/2)) * 1 = 2/3`. -/
theorem claim_C4_w :
    ((relDoc "m.py" "M", (2 : ℚ)/3) ∈ ([] : List (Doc × ℚ))) ∨
      ∃ dist : ℚ,
        ((relDoc "m.py" "M", dist) ∈ [(relDoc "m.py" "M", (1 : ℚ)/2)]) ∧
        dist ≤ 3/2 ∧
        shouldIgnoreFile (candidateKey (relDoc "m.py" "M")) = false ∧
        (2 : ℚ)/3 = (if 0 < dist then 1 / (1 + dist) else 1/2) *
          getFilePriority (candidateKey (relDoc "m.py" "M")) :=
  claim_C4_amended [(relDoc "m.py" "M", (1 : ℚ)/2)] [] []
    (relDoc "m.py" "M") ((2 : ℚ)/3) (by decide)

unseal Rat.mul Rat.add Rat.inv in
/-- Claim C4 counterexample: a semantic result at distance exactly 0 is
kept (0 ≤ 1.5) but scored `0.5 * priority = 1/2`, not
`1/(1+0) * priority = 1` as the claim states. -/
theorem claim_C4_cex :
    (getRelevantDocsFull ["a.py"] [⟨"a.py", none, "zz", "zz"⟩]
        store4).semantic = [(relDoc "m.py" "M", 1/2)] ∧
    (1 : ℚ) / (1 + 0) * getFilePriority "m.py" ≠ 1/2 :=
  ⟨by decide, by decide⟩

theorem getFilePriority_le_one (p : String) : getFilePriority p ≤ 1 := by
  unfold getFilePriority
  by_cases h1 : lowerStr (pathSuffix p) ∈ CODE_EXTENSIONS
  · simp [h1]
  · by_cases h2 : lowerStr (pathSuffix p) ∈ DOC_EXTENSIONS
    · simp only [h1, h2, if_true, if_false]
      norm_num
    · simp only [h1, h2, if_false]
      norm_num

theorem getFilePriority_pos (p : String) : 0 < getFilePriority p := by
  unfold getFilePriority
  by_cases h1 : lowerStr (pathSuffix p) ∈ CODE_EXTENSIONS
  · simp [h1]
  · by_cases h2 : lowerStr (pathSuffix p) ∈ DOC_EXTENSIONS
    · simp only [h1, h2, if_true, if_false]
      norm_num
    · simp only [h1, h2, if_false]
      norm_num

theorem fbScanAux_mem :
    ∀ (ds : List Doc) (seen : List String) (sm : List (Doc × ℚ))
      (p : Doc × ℚ), p ∈ (fbScanAux ds seen sm).2 →
      p ∈ sm ∨
        (p.2 = 1/5 * getFilePriority (candidateKey p.1) ∧ p.2 ≤ 1/5) := by
  intro ds
  induction ds with
  | nil =>
    intro seen sm p h
    exact Or.inl (by simpa [fbScanAux] using h)
  | cons d1 ds ih =>
    intro seen sm p h
    by_cases hig : shouldIgnoreFile (candidateKey d1) = true
    · rw [show fbScanAux (d1 :: ds) seen sm = fbScanAux ds seen sm by
        simp only [fbScanAux, hig, if_true]] at h
      exact ih seen sm p h
    · by_cases hseen : candidateKey d1 ∈ seen
      · rw [show fbScanAux (d1 :: ds) seen sm = fbScanAux ds seen sm by
          simp only [fbScanAux, hig, Bool.false_eq_true, if_false]
          rw [if_pos hseen]] at h
        exact ih seen sm p h
      · rw [show fbScanAux (d1 :: ds) seen sm
            = fbScanAux ds (candidateKey d1 :: seen)
                (sm ++ [(d1, 1/5 * getFilePriority (candidateKey d1))]) by
          simp only [fbScanAux, hig, Bool.false_eq_true, if_false]
          rw [if_neg hseen]] at h
        rcases ih _ _ p h with h1 | h1
        · rcases List.mem_append.mp h1 with h2 | h2
          · exact Or.inl h2
          · simp only [List.mem_singleton] at h2
            subst h2
            refine Or.inr ⟨rfl, ?_⟩
            have h3 := getFilePriority_le_one (candidateKey d1)
            have h4 : (1 : ℚ)/5 * getFilePriority (candidateKey d1)
                ≤ 1/5 * 1 :=
              mul_le_mul_of_nonneg_left h3 (by norm_num)
            simpa using h4
        · exact Or.inr h1

/-- Claim C8 (amended): when the scored similarity query for a reference
raises, resolution of that reference degrades to the single smaller
(`k = 5`) unscored fallback query — the failure is absorbed, never
propagated — and each result it contributes is scored `0.2` *times the
file-type priority weight* (not a fixed constant), hence at most `0.2`;
degraded results therefore rank below every same-weight threshold-passing
semantic match but need not rank last overall (and the weight-`0.3` ones
score `0.06`, below the relevance floor).  Folding over the references
continues from the updated state, so the other references are still
processed. -/
theorem claim_C8_amended (store : Store) (info : RefInfo)
    (seen : List String) (sm : List (Doc × ℚ))
    (h : store.searchScored info.file 10 = none) :
    semanticPhase store info seen sm =
      fbScanAux (store.search info.file 5) seen sm ∧
    (∀ p ∈ (semanticPhase store info seen sm).2,
      p ∈ sm ∨
        (p.2 = 1/5 * getFilePriority (candidateKey p.1) ∧ p.2 ≤ 1/5)) ∧
    (∀ (cands : List Doc)
      (st : List String × List (Doc × ℚ) × List (Doc × ℚ))
      (l1 l2 : List RefInfo),
      List.foldl (refStep store cands) st (l1 ++ l2) =
        List.foldl (refStep store cands)
          (List.foldl (refStep store cands) st l1) l2) := by
  have h1 : semanticPhase store info seen sm =
      fbScanAux (store.search info.file 5) seen sm := by
    unfold semanticPhase
    rw [h]
  refine ⟨h1, ?_, ?_⟩
  · intro p hp
    rw [h1] at hp
    exact fbScanAux_mem _ seen sm p hp
  · intro cands st l1 l2
    exact List.foldl_append ..

/-- Claim C8 witness: the scored query of `store8` raises for `a.py`, and
the semantic phase degrades to the `k = 5` fallback query. -/
theorem claim_C8_w :
    semanticPhase store8 ⟨"a.py", none, "z1", "z1"⟩ [] [] =
      fbScanAux (store8.search "a.py" 5) [] [] :=
  (claim_C8_amended store8 ⟨"a.py", none, "z1", "z1"⟩ [] [] (by decide)).1

unseal Rat.mul Rat.add Rat.inv in
/-- Claim C8 counterexample: the fallback-scored document (`f.py`, score
`0.2`) ranks *above* the successfully scored document (`s.dat`, score
`0.12`) in the final ranking — degraded results do not rank last, and
their score is `0.2 × priority`, not a fixed value. -/
theorem claim_C8_cex :
    store8.searchScored "a.py" 10 = none ∧
    (getRelevantDocsFull ["a.py", "b.py"] refs8 store8).semantic =
      [(relDoc "f.py" "F", 1/5), (relDoc "s.dat" "S", 3/25)] ∧
    getRelevantDocs ["a.py", "b.py"] refs8 store8 =
      [relDoc "f.py" "F", relDoc "s.dat" "S"] ∧
    relDoc "f.py" "F" ≠ relDoc "s.dat" "S" :=
  ⟨by decide, by decide, by decide, by decide⟩


theorem matchKeys_append (a b : List (Doc × ℚ)) :
    matchKeys (a ++ b) = matchKeys a ++ matchKeys b :=
  List.map_append ..

theorem exactScanAux_inv (info : RefInfo) :
    ∀ (cands : List Doc) (seen : List String) (ex sm : List (Doc × ℚ))
      (fnd : Bool), ResolveInv seen ex sm →
      ResolveInv (exactScanAux info cands seen ex fnd).1
        (exactScanAux info cands seen ex fnd).2.1 sm := by
  intro cands
  induction cands with
  | nil => intro seen ex sm fnd h; simpa [exactScanAux] using h
  | cons d ds ih =>
    intro seen ex sm fnd h
    by_cases hx : isExactMatch info d = true
    · by_cases hk : candidateKey d ∈ seen
      · rw [show exactScanAux info (d :: ds) seen ex fnd
            = exactScanAux info ds seen ex fnd by
          simp only [exactScanAux, hx, if_true]
          rw [if_pos hk]]
        exact ih seen ex sm fnd h
      · rw [show exactScanAux info (d :: ds) seen ex fnd
            = exactScanAux info ds (candidateKey d :: seen)
                (ex ++ [(d, 1)]) true by
          simp only [exactScanAux, hx, if_true]
          rw [if_neg hk]]
        have hkeys : matchKeys ((ex ++ [(d, 1)]) ++ sm)
            = matchKeys ex ++ candidateKey d :: matchKeys sm := by
          rw [List.append_assoc, matchKeys_append]
          simp [matchKeys]
        refine ih _ _ sm true ⟨?_, ?_, ?_, h.2.2.2⟩
        · rw [hkeys, List.nodup_middle]
          refine List.nodup_cons.mpr ⟨?_, by
            have h0 := h.1
            rwa [matchKeys_append] at h0⟩
          intro hmem
          apply hk
          apply h.2.1
          rwa [matchKeys_append]
        · intro k hkmem
          rw [hkeys] at hkmem
          rcases List.mem_append.mp hkmem with h1 | h1
          · exact List.mem_cons_of_mem _ (h.2.1 k
              (by rw [matchKeys_append]; exact List.mem_append_left _ h1))
          · rcases List.mem_cons.mp h1 with h2 | h2
            · simp [h2]
            · exact List.mem_cons_of_mem _ (h.2.1 k
                (by rw [matchKeys_append]
                    exact List.mem_append_right _ h2))
        · intro p hp
          rcases List.mem_append.mp hp with h1 | h1
          · exact h.2.2.1 p h1
          · simp only [List.mem_singleton] at h1
            simp [h1]
    · rw [show exactScanAux info (d :: ds) seen ex fnd
          = exactScanAux info ds seen ex fnd by
        simp only [exactScanAux, hx, Bool.false_eq_true, if_false]]
      exact ih seen ex sm fnd h

theorem ResolveInv.grow {seen seen' : List String} {ex sm : List (Doc × ℚ)}
    (h : ResolveInv seen ex sm) (hsub : ∀ x ∈ seen, x ∈ seen') :
    ResolveInv seen' ex sm :=
  ⟨h.1, fun k hk => hsub k (h.2.1 k hk), h.2.2.1, h.2.2.2⟩

theorem ResolveInv.append_sm {seen : List String} {ex sm : List (Doc × ℚ)}
    (h : ResolveInv seen ex sm) (d : Doc) (sc : ℚ)
    (hk : candidateKey d ∉ seen) (hsc : sc < 1) :
    ResolveInv (candidateKey d :: seen) ex (sm ++ [(d, sc)]) := by
  have hkeys : matchKeys (ex ++ (sm ++ [(d, sc)]))
      = matchKeys (ex ++ sm) ++ [candidateKey d] := by
    rw [← List.append_assoc, matchKeys_append]
    simp [matchKeys]
  have hknotin : candidateKey d ∉ matchKeys (ex ++ sm) := by
    intro hmem
    exact hk (h.2.1 _ hmem)
  refine ⟨?_, ?_, h.2.2.1, ?_⟩
  · rw [hkeys]
    rw [(List.perm_append_singleton _ _).nodup_iff]
    exact List.nodup_cons.mpr ⟨hknotin, h.1⟩
  · intro k hkmem
    rw [hkeys] at hkmem
    rcases List.mem_append.mp hkmem with h1 | h1
    · exact List.mem_cons_of_mem _ (h.2.1 k h1)
    · simp only [List.mem_singleton] at h1
      simp [h1]
  · intro p hp
    rcases List.mem_append.mp hp with h1 | h1
    · exact h.2.2.2 p h1
    · simp only [List.mem_singleton] at h1
      simp [h1, hsc]

theorem semScore_lt_one (dist : ℚ) (p : String) :
    (if 0 < dist then 1 / (1 + dist) else 1/2) * getFilePriority p < 1 := by
  have hp1 := getFilePriority_le_one p
  have hp0 := getFilePriority_pos p
  by_cases hd : 0 < dist
  · rw [if_pos hd]
    have h1 : (1 : ℚ) / (1 + dist) < 1 := by
      rw [div_lt_one (by linarith)]
      linarith
    have h2 : (0 : ℚ) ≤ 1 / (1 + dist) := by positivity
    calc (1 / (1 + dist)) * getFilePriority p
        ≤ (1 / (1 + dist)) * 1 := mul_le_mul_of_nonneg_left hp1 h2
      _ = 1 / (1 + dist) := mul_one _
      _ < 1 := h1
  · rw [if_neg hd]
    nlinarith

theorem fbScore_lt_one (p : String) : 1/5 * getFilePriority p < 1 := by
  have hp1 := getFilePriority_le_one p
  have hp0 := getFilePriority_pos p
  nlinarith

theorem semScanAux_inv :
    ∀ (rs : List (Doc × ℚ)) (seen : List String) (ex sm : List (Doc × ℚ)),
      ResolveInv seen ex sm →
      ResolveInv (semScanAux rs seen sm).1 ex (semScanAux rs seen sm).2 := by
  intro rs
  induction rs with
  | nil => intro seen ex sm h; simpa [semScanAux] using h
  | cons pr rs ih =>
    intro seen ex sm h
    obtain ⟨d1, dist1⟩ := pr
    by_cases hig : shouldIgnoreFile (candidateKey d1) = true
    · rw [show semScanAux ((d1, dist1) :: rs) seen sm
          = semScanAux rs seen sm by
        simp only [semScanAux, hig, if_true]]
      exact ih seen ex sm h
    · by_cases hseen : candidateKey d1 ∈ seen
      · rw [show semScanAux ((d1, dist1) :: rs) seen sm
            = semScanAux rs seen sm by
          simp only [semScanAux, hig, Bool.false_eq_true, if_false]
          rw [if_pos hseen]]
        exact ih seen ex sm h
      · by_cases hbig : (3 : ℚ)/2 < dist1
        · rw [show semScanAux ((d1, dist1) :: rs) seen sm
              = semScanAux rs (candidateKey d1 :: seen) sm by
            simp only [semScanAux, hig, Bool.false_eq_true, if_false]
            rw [if_neg hseen, if_pos hbig]]
          exact ih _ ex sm
            (h.grow (fun x hx => List.mem_cons_of_mem _ hx))
        · rw [show semScanAux ((d1, dist1) :: rs) seen sm
              = semScanAux rs (candidateKey d1 :: seen)
                  (sm ++ [(d1, (if 0 < dist1 then 1 / (1 + dist1) else 1/2)
                    * getFilePriority (candidateKey d1))]) by
            simp only [semScanAux, hig, Bool.false_eq_true, if_false]
            rw [if_neg hseen, if_neg hbig]]
          exact ih _ ex _
            (h.append_sm d1 _ hseen (semScore_lt_one dist1 _))

theorem fbScanAux_inv :
    ∀ (ds : List Doc) (seen : List String) (ex sm : List (Doc × ℚ)),
      ResolveInv seen ex sm →
      ResolveInv (fbScanAux ds seen sm).1 ex (fbScanAux ds seen sm).2 := by
  intro ds
  induction ds with
  | nil => intro seen ex sm h; simpa [fbScanAux] using h
  | cons d1 ds ih =>
    intro seen ex sm h
    by_cases hig : shouldIgnoreFile (candidateKey d1) = true
    · rw [show fbScanAux (d1 :: ds) seen sm = fbScanAux ds seen sm by
        simp only [fbScanAux, hig, if_true]]
      exact ih seen ex sm h
    · by_cases hseen : candidateKey d1 ∈ seen
      · rw [show fbScanAux (d1 :: ds) seen sm = fbScanAux ds seen sm by
          simp only [fbScanAux, hig, Bool.false_eq_true, if_false]
          rw [if_pos hseen]]
        exact ih seen ex sm h
      · rw [show fbScanAux (d1 :: ds) seen sm
            = fbScanAux ds (candidateKey d1 :: seen)
                (sm ++ [(d1, 1/5 * getFilePriority (candidateKey d1))]) by
          simp only [fbScanAux, hig, Bool.false_eq_true, if_false]
          rw [if_neg hseen]]
        exact ih _ ex _ (h.append_sm d1 _ hseen (fbScore_lt_one _))

theorem semanticPhase_inv (store : Store) (info : RefInfo)
    (seen : List String) (ex sm : List (Doc × ℚ))
    (h : ResolveInv seen ex sm) :
    ResolveInv (semanticPhase store info seen sm).1 ex
      (semanticPhase store info seen sm).2 := by
  unfold semanticPhase
  cases hs : store.searchScored info.file 10 with
  | none => exact fbScanAux_inv _ seen ex sm h
  | some rs => exact semScanAux_inv rs seen ex sm h

theorem refStep_inv (store : Store) (cands : List Doc) (info : RefInfo)
    (st : List String × List (Doc × ℚ) × List (Doc × ℚ))
    (h : ResolveInv st.1 st.2.1 st.2.2) :
    ResolveInv (refStep store cands st info).1
      (refStep store cands st info).2.1
      (refStep store cands st info).2.2 := by
  obtain ⟨seen, ex, sm⟩ := st
  have h1 := exactScanAux_inv info cands seen ex sm false h
  rcases hE : exactScanAux info cands seen ex false with ⟨seen1, ex1, fnd⟩
  rw [hE] at h1
  show ResolveInv
    (match exactScanAux info cands seen ex false with
      | (seen1, ex1, fnd) =>
        if fnd = true then (seen1, ex1, sm)
        else
          match semanticPhase store info seen1 sm with
          | (seen2, sm2) => (seen2, ex1, sm2)).1
    (match exactScanAux info cands seen ex false with
      | (seen1, ex1, fnd) =>
        if fnd = true then (seen1, ex1, sm)
        else
          match semanticPhase store info seen1 sm with
          | (seen2, sm2) => (seen2, ex1, sm2)).2.1
    (match exactScanAux info cands seen ex false with
      | (seen1, ex1, fnd) =>
        if fnd = true then (seen1, ex1, sm)
        else
          match semanticPhase store info seen1 sm with
          | (seen2, sm2) => (seen2, ex1, sm2)).2.2
  rw [hE]
  cases fnd with
  | true => exact h1
  | false =>
    have h2 := semanticPhase_inv store info seen1 ex1 sm h1
    rcases hS : semanticPhase store info seen1 sm with ⟨seen2, sm2⟩
    rw [hS] at h2
    show ResolveInv
      (match semanticPhase store info seen1 sm with
        | (seen2, sm2) => (seen2, ex1, sm2)).1
      (match semanticPhase store info seen1 sm with
        | (seen2, sm2) => (seen2, ex1, sm2)).2.1
      (match semanticPhase store info seen1 sm with
        | (seen2, sm2) => (seen2, ex1, sm2)).2.2
    rw [hS]
    exact h2

theorem foldRefStep_inv (store : Store) (cands : List Doc) :
    ∀ (si : List RefInfo)
      (st : List String × List (Doc × ℚ) × List (Doc × ℚ)),
      ResolveInv st.1 st.2.1 st.2.2 →
      ResolveInv (List.foldl (refStep store cands) st si).1
        (List.foldl (refStep store cands) st si).2.1
        (List.foldl (refStep store cands) st si).2.2 := by
  intro si
  induction si with
  | nil => intro st h; simpa using h
  | cons info si ih =>
    intro st h
    exact ih _ (refStep_inv store cands info st h)

/-- Claim C2 (amended): across one whole resolution pass at most one
scored match survives per unique path key (`file_path`, falling back to
`path`) — the keys of the recorded exact and semantic matches are
pairwise distinct — and every exact match scores exactly 1.0.  However,
exact matches take priority over semantic ones for the same path only
when recorded no later: a semantic match recorded while resolving an
earlier reference permanently claims the path key, and a later reference
whose exact-path test hits the same document neither records an exact
match nor even counts as exactly resolved. -/
theorem claim_C2_amended (o : List String) (si : List RefInfo)
    (store : Store) :
    (matchKeys ((getRelevantDocsFull o si store).exact ++
      (getRelevantDocsFull o si store).semantic)).Nodup ∧
    (∀ p ∈ (getRelevantDocsFull o si store).exact, p.2 = 1) := by
  have h0 : ResolveInv ([] : List String) [] [] :=
    ⟨by simp [matchKeys], by simp [matchKeys], by simp, by simp⟩
  have h := foldRefStep_inv store
    (dedupCands
      (if joinSep " " o ≠ "" then
        store.search (joinSep " " o)
          (min 100 ((si.map (·.file)).length * 10))
      else []) [])
    si ([], [], []) h0
  exact ⟨h.1, h.2.2.1⟩

unseal Rat.mul Rat.add Rat.inv in
/-- Claim C2 counterexample: document `sub/y.py` is semantically matched
(score 2/3) while resolving the earlier reference `x.py`; the later
reference `y.py` matches it exactly, yet no exact match is recorded — the
surviving match for that path is the semantic one, not an exact one with
score 1.0. -/
theorem claim_C2_cex :
    isExactMatch ⟨"y.py", none, "q/y.py", "q/y.py"⟩
      (relDoc "sub/y.py" "Y") = true ∧
    (getRelevantDocsFull ["x.py", "y.py"] refs2 store2).exact = [] ∧
    (getRelevantDocsFull ["x.py", "y.py"] refs2 store2).semantic =
      [(relDoc "sub/y.py" "Y", 2/3)] :=
  ⟨by decide, by decide, by decide⟩

theorem mem_insertDescQ (y x : Doc × ℚ) (l : List (Doc × ℚ))
    (h : x ∈ insertDescQ y l) : x = y ∨ x ∈ l := by
  induction l with
  | nil => simpa [insertDescQ] using h
  | cons z zs ih =>
    by_cases hc : y.2 < z.2
    · simp only [insertDescQ, hc, if_true, List.mem_cons] at h
      rcases h with h | h
      · exact Or.inr (by simp [h])
      · rcases ih h with h1 | h1
        · exact Or.inl h1
        · exact Or.inr (List.mem_cons_of_mem _ h1)
    · simp only [insertDescQ, hc, if_false, List.mem_cons] at h
      rcases h with h | h | h
      · exact Or.inl h
      · exact Or.inr (by simp [h])
      · exact Or.inr (List.mem_cons_of_mem _ h)

theorem mem_sortDescQ (x : Doc × ℚ) :
    ∀ l : List (Doc × ℚ), x ∈ sortDescQ l → x ∈ l := by
  intro l
  induction l with
  | nil => simp [sortDescQ]
  | cons a as ih =>
    intro h
    have h1 : x ∈ insertDescQ a (sortDescQ as) := h
    rcases mem_insertDescQ a x (sortDescQ as) h1 with h2 | h2
    · simp [h2]
    · exact List.mem_cons_of_mem _ (ih h2)

theorem pairwise_insertDescQ (x : Doc × ℚ) :
    ∀ l : List (Doc × ℚ),
      List.Pairwise (fun a b => b.2 ≤ a.2) l →
      List.Pairwise (fun a b => b.2 ≤ a.2) (insertDescQ x l) := by
  intro l
  induction l with
  | nil => intro h; simp [insertDescQ]
  | cons y ys ih =>
    intro h
    rcases List.pairwise_cons.mp h with ⟨hy, hys⟩
    by_cases hc : x.2 < y.2
    · rw [show insertDescQ x (y :: ys) = y :: insertDescQ x ys by
        simp [insertDescQ, hc]]
      refine List.pairwise_cons.mpr ⟨?_, ih hys⟩
      intro z hz
      rcases mem_insertDescQ x z ys hz with h1 | h1
      · rw [h1]; exact le_of_lt hc
      · exact hy z h1
    · rw [show insertDescQ x (y :: ys) = x :: y :: ys by
        simp [insertDescQ, hc]]
      refine List.pairwise_cons.mpr ⟨?_, h⟩
      intro z hz
      rcases List.mem_cons.mp hz with h1 | h1
      · rw [h1]; exact not_lt.mp hc
      · exact le_trans (hy z h1) (not_lt.mp hc)

theorem sortDescQ_pairwise (l : List (Doc × ℚ)) :
    List.Pairwise (fun a b => b.2 ≤ a.2) (sortDescQ l) := by
  induction l with
  | nil => simp [sortDescQ]
  | cons a as ih => exact pairwise_insertDescQ a (sortDescQ as) ih

theorem insertDescQ_cons_of (x : Doc × ℚ) (l : List (Doc × ℚ))
    (hl : ∀ y, l.head? = some y → ¬ x.2 < y.2) :
    insertDescQ x l = x :: l := by
  cases l with
  | nil => rfl
  | cons y ys =>
    simp only [insertDescQ]
    rw [if_neg (hl y rfl)]

theorem sortDescQ_split :
    ∀ (e s : List (Doc × ℚ)), (∀ p ∈ e, p.2 = 1) → (∀ p ∈ s, p.2 < 1) →
      sortDescQ (e ++ s) = e ++ sortDescQ s := by
  intro e
  induction e with
  | nil => intro s he hs; rfl
  | cons x e ih =>
    intro s he hs
    have hx : x.2 = 1 := he x (List.mem_cons_self _ _)
    have he2 : ∀ p ∈ e, p.2 = 1 := fun p hp =>
      he p (List.mem_cons_of_mem _ hp)
    have h1 : sortDescQ ((x :: e) ++ s)
        = insertDescQ x (sortDescQ (e ++ s)) := rfl
    rw [h1, ih s he2 hs]
    have hfront : insertDescQ x (e ++ sortDescQ s)
        = x :: (e ++ sortDescQ s) := by
      apply insertDescQ_cons_of
      intro y hy
      cases e with
      | cons z e2 =>
        simp only [List.cons_append, List.head?_cons,
          Option.some.injEq] at hy
        rw [← hy, hx, he2 z (List.mem_cons_self _ _)]
        simp
      | nil =>
        simp only [List.nil_append] at hy
        cases hsort : sortDescQ s with
        | nil => rw [hsort] at hy; simp at hy
        | cons w ws =>
          rw [hsort] at hy
          simp only [List.head?_cons, Option.some.injEq] at hy
          have hw : w ∈ s := mem_sortDescQ w s (by rw [hsort]; simp)
          have := hs w hw
          rw [← hy, hx]
          linarith
    rw [hfront]
    simp

theorem capFold_acc_mono (exDocs : List Doc) :
    ∀ (l : List (Doc × ℚ)) (acc : List Doc) (x : Doc), x ∈ acc →
      x ∈ List.foldl
        (fun acc ds =>
          if ds.2 < 1/10 && ds.1 ∉ exDocs then acc else acc ++ [ds.1])
        acc l := by
  intro l
  induction l with
  | nil => intro acc x h; simpa using h
  | cons p l ih =>
    intro acc x h
    simp only [List.foldl_cons]
    by_cases hc : (decide (p.2 < 1/10) && decide (p.1 ∉ exDocs)) = true
    · rw [if_pos hc]
      exact ih acc x h
    · rw [if_neg hc]
      exact ih _ x (List.mem_append_left _ h)

theorem capFold_mem (exDocs : List Doc) :
    ∀ (l : List (Doc × ℚ)) (acc : List Doc) (d : Doc) (sc : ℚ),
      (d, sc) ∈ l → ¬ (sc < 1/10 ∧ d ∉ exDocs) →
      d ∈ List.foldl
        (fun acc ds =>
          if ds.2 < 1/10 && ds.1 ∉ exDocs then acc else acc ++ [ds.1])
        acc l := by
  intro l
  induction l with
  | nil => intro acc d sc h; simp at h
  | cons p l ih =>
    intro acc d sc hmem hcond
    rcases List.mem_cons.mp hmem with h1 | h1
    · simp only [List.foldl_cons, ← h1]
      have hc : (decide (sc < 1/10) && decide (d ∉ exDocs)) = false := by
        by_cases hsc : sc < 1/10
        · have hd : d ∈ exDocs := not_not.mp (fun hn => hcond ⟨hsc, hn⟩)
          rw [decide_eq_false (show ¬ d ∉ exDocs from fun hn => hn hd)]
          rw [Bool.and_false]
        · rw [decide_eq_false hsc, Bool.false_and]
      have hc2 : ¬ ((decide ((d, sc).2 < 1/10) &&
          decide ((d, sc).1 ∉ exDocs)) = true) := by
        show ¬ ((decide (sc < 1/10) && decide (d ∉ exDocs)) = true)
        rw [hc]
        simp
      rw [if_neg hc2]
      exact capFold_acc_mono exDocs l _ d (List.mem_append_right _ (by simp))
    · simp only [List.foldl_cons]
      exact ih _ d sc h1 hcond

/-- Claim C5 (amended): the merge-and-bound step sorts the concatenated
exact and semantic matches descending by score (stably, so ties keep
encounter order; since every exact match scores exactly 1 and every
semantic match strictly less, all exact matches come first in encounter
order), returns the top 20 of that order with non-exact entries below
the 0.1 floor dropped, and never drops an exact match by the floor; when
at most 20 exact matches exist none is dropped at all — but (contrary to
the claim) with more than 20 exact matches the cap does drop the excess
exact matches. -/
theorem claim_C5_amended (o : List String) (si : List RefInfo)
    (store : Store)
    (h : (getRelevantDocsFull o si store).exact.length ≤ 20) :
    sortDescQ ((getRelevantDocsFull o si store).exact ++
        (getRelevantDocsFull o si store).semantic) =
      (getRelevantDocsFull o si store).exact ++
        sortDescQ (getRelevantDocsFull o si store).semantic ∧
    List.Pairwise (fun a b => b.2 ≤ a.2)
      (sortDescQ ((getRelevantDocsFull o si store).exact ++
        (getRelevantDocsFull o si store).semantic)) ∧
    (getRelevantDocsFull o si store).docs =
      capFloor
        (sortDescQ ((getRelevantDocsFull o si store).exact ++
          (getRelevantDocsFull o si store).semantic))
        ((getRelevantDocsFull o si store).exact.map (fun p => p.1)) ∧
    (∀ p ∈ (getRelevantDocsFull o si store).exact,
      p.2 = 1 ∧ p.1 ∈ (getRelevantDocsFull o si store).docs) := by
  have h0 : ResolveInv ([] : List String) [] [] :=
    ⟨by simp [matchKeys], by simp [matchKeys], by simp, by simp⟩
  have hInv := foldRefStep_inv store
    (dedupCands
      (if joinSep " " o ≠ "" then
        store.search (joinSep " " o)
          (min 100 ((si.map (·.file)).length * 10))
      else []) [])
    si ([], [], []) h0
  have hex : ∀ p ∈ (getRelevantDocsFull o si store).exact, p.2 = 1 :=
    hInv.2.2.1
  have hsm : ∀ p ∈ (getRelevantDocsFull o si store).semantic, p.2 < 1 :=
    hInv.2.2.2
  have hsplit := sortDescQ_split _ _ hex hsm
  refine ⟨hsplit, sortDescQ_pairwise _, rfl, ?_⟩
  intro p hp
  refine ⟨hex p hp, ?_⟩
  show p.1 ∈ capFloor
    (sortDescQ ((getRelevantDocsFull o si store).exact ++
      (getRelevantDocsFull o si store).semantic))
    ((getRelevantDocsFull o si store).exact.map (fun q => q.1))
  rw [hsplit]
  unfold capFloor
  rw [List.take_append_eq_append_take, List.take_of_length_le h]
  apply capFold_mem _ _ _ p.1 p.2
  · apply List.mem_append_left
    rw [Prod.mk.eta]
    exact hp
  · intro hcontra
    have h1 := hex p hp
    rw [h1] at hcontra
    have := hcontra.1
    norm_num at this

unseal Rat.mul Rat.add Rat.inv in
/-- Claim C5 witness: with one reference and one exactly matching
candidate, the single exact match (score 1) survives into the returned
documents. -/
theorem claim_C5_w :
    relDoc "x.py" "W" ∈
      (getRelevantDocsFull ["x.py"] [⟨"x.py", none, "x.py", "x.py"⟩]
        storeW5).docs :=
  ((claim_C5_amended ["x.py"] [⟨"x.py", none, "x.py", "x.py"⟩] storeW5
    (by decide)).2.2.2 (relDoc "x.py" "W", 1) (by decide)).2

set_option maxRecDepth 100000 in
unseal Rat.mul Rat.add Rat.inv in
/-- Claim C5 counterexample: with 21 exact matches recorded, the cap
keeps only the first 20 — the 21st exact match (score 1.0) is dropped
from the returned documents. -/
theorem claim_C5_cex :
    (getRelevantDocsFull ["a.py", "b.py", "c.py"] refs5 store5).exact.length
      = 21 ∧
    ((doc5 21, 1) ∈
      (getRelevantDocsFull ["a.py", "b.py", "c.py"] refs5 store5).exact) ∧
    (getRelevantDocs ["a.py", "b.py", "c.py"] refs5 store5).length = 20 ∧
    doc5 21 ∉ getRelevantDocs ["a.py", "b.py", "c.py"] refs5 store5 :=
  ⟨by decide, by decide, by decide, by decide⟩
